import Mathlib

/-!
# Verification of the publisher's core components

A shallow embedding, in Lean 4, of the core logic of the publishing agent:

* the capability validator (`internal/clients/connect/capabilities.go`),
* the credential store (`internal/credentials/credentials.go`),
* the Shiny-Express entrypoint encoding (`internal/inspect/detectors/pyshiny.go`),
* the publish orchestrator (`internal/publish/notebook.go` and friends),
* the bundler's symlink-following directory walk (`internal/bundles/bundle.go`).

Go machine integers only ever appear here in comparisons, never in overflowing
arithmetic, so they are embedded as `Int`.  `float64` resource values are
embedded as `Rat`: every comparison the code performs on them is exact for the
values at issue.  Go slices/maps are embedded as lists (a map iteration is one
concrete iteration order).  Fallible operations return `Option`/`Except`.
-/

namespace Capabilities

/-- One dot-separated split step, mirroring Go `strings.Split(version, ".")`:
`splitDots []` is `[[]]`, matching `strings.Split("", ".") == [""]`. -/
def splitDots : List Char → List (List Char)
  | [] => [[]]
  | c :: rest =>
    if c = '.' then [] :: splitDots rest
    else
      match splitDots rest with
      | [] => [[c]]
      | h :: t => (c :: h) :: t

/-- `majorMinorVersion` from `capabilities.go`:
`strings.Join(strings.Split(version, ".")[:2], ".")`.
The Go slice expression `[:2]` panics when the split has fewer than two
components (any version string without a `.`); that partiality is made
explicit with `Option`: `none` is the panic. -/
def majorMinorVersion? (version : String) : Option String :=
  let parts := splitDots version.data
  if parts.length < 2 then none
  else some (String.mk (List.intercalate ['.'] (parts.take 2)))

/-- Outcome of `allSettings.checkMatchingPython`: the Go function either
returns `nil`, returns an agent error, or panics inside `majorMinorVersion`. -/
inductive PythonCheck where
  | panics
  | ok
  | notAvailable (code : String) (requested : String) (available : List String)
  deriving DecidableEq, Repr

/-- The installation-scanning loop of `checkMatchingPython`, one server
installation at a time, in server order. -/
def matchLoop (requested : String) (all : List String) : List String → PythonCheck
  | [] => .notAvailable "pythonNotAvailable" requested all
  | inst :: rest =>
    match majorMinorVersion? inst with
    | none => .panics
    | some mm => if mm = requested then .ok else matchLoop requested all rest

/-- `allSettings.checkMatchingPython` from `capabilities.go`.  A version of
`""` passes; otherwise the requested major.minor is compared against the
major.minor of each server-reported installation, and on no match the error
carries the requested major.minor plus the full version strings of all
installations (`newPythonNotAvailableErr`). -/
def checkMatchingPython (version : String) (installations : List String) : PythonCheck :=
  if version = "" then .ok
  else
    match majorMinorVersion? version with
    | none => .panics
    | some requested => matchLoop requested installations installations

/-- Result of one scheduler-limit check in `capabilities.go`.  The
`valueOutOfRange` constructor is the generic range code
(`types.ValueOutOfRangeCode`), `minGreaterThanMax` the dedicated code
(`types.MinGreaterThanMaxCode`); details mirror `types.ValueRangeDetails`
and `types.MinGreaterThanMaxDetails`. -/
inductive RangeCheck (α : Type) where
  | ok
  | valueOutOfRange (configKey : String) (value min max : α)
  | minGreaterThanMax (configKey maxConfigKey : String) (value max : α)
  deriving DecidableEq, Repr

/-- `checkMaxInt` from `capabilities.go` (over `int32`/`int64`, embedded as
`Int`): a `nil` config value or a zero server limit passes; otherwise the
value must lie in `[0, limit]`. -/
def checkMaxInt (attr : String) (valuePtr : Option Int) (limit : Int) : RangeCheck Int :=
  match valuePtr with
  | none => .ok
  | some value =>
    if limit = 0 then .ok
    else if value < 0 ∨ value > limit then .valueOutOfRange attr value 0 limit
    else .ok

/-- `checkMinMaxIntWithDefaults` from `capabilities.go`: the effective min is
the configured value, else the server default, likewise for max; a zero
effective max means "no limit"; otherwise `min > max` is the dedicated
`minGreaterThanMax` error naming both config keys. -/
def checkMinMaxIntWithDefaults (minAttr : String) (cfgMin : Option Int) (defaultMin : Int)
    (maxAttr : String) (cfgMax : Option Int) (defaultMax : Int) : RangeCheck Int :=
  let minValue := cfgMin.getD defaultMin
  let maxValue := cfgMax.getD defaultMax
  if maxValue = 0 then .ok
  else if minValue > maxValue then
    .minGreaterThanMax minAttr maxAttr minValue maxValue
  else .ok

/-- `checkMinMaxFloatWithDefaults` from `capabilities.go`; `float64` values
embedded as `Rat` (all comparisons performed by the code are exact). -/
def checkMinMaxFloatWithDefaults (minAttr : String) (cfgMin : Option Rat) (defaultMin : Rat)
    (maxAttr : String) (cfgMax : Option Rat) (defaultMax : Rat) : RangeCheck Rat :=
  let minValue := cfgMin.getD defaultMin
  let maxValue := cfgMax.getD defaultMax
  if maxValue = 0 then .ok
  else if minValue > maxValue then
    .minGreaterThanMax minAttr maxAttr minValue maxValue
  else .ok

theorem splitDots_ne_nil (cs : List Char) : splitDots cs ≠ [] := by
  cases cs with
  | nil => simp [splitDots]
  | cons c rest =>
    simp only [splitDots]
    split
    · simp
    · cases h : splitDots rest <;> simp

theorem splitDots_length_ge_two_iff (cs : List Char) :
    2 ≤ (splitDots cs).length ↔ '.' ∈ cs := by
  induction cs with
  | nil => simp [splitDots]
  | cons c rest ih =>
    by_cases hc : c = '.'
    · subst hc
      have h2 : 0 < (splitDots rest).length :=
        List.length_pos.mpr (splitDots_ne_nil rest)
      have hsd : splitDots ('.' :: rest) = [] :: splitDots rest := by
        simp [splitDots]
      rw [hsd, List.length_cons]
      constructor
      · intro _; exact List.mem_cons_self '.' rest
      · intro _; omega
    · cases h : splitDots rest with
      | nil => exact absurd h (splitDots_ne_nil rest)
      | cons hd tl =>
        have ih' : 2 ≤ tl.length + 1 ↔ '.' ∈ rest := by
          rw [← ih, h, List.length_cons]
        have hsd : splitDots (c :: rest) = (c :: hd) :: tl := by
          simp [splitDots, hc, h]
        rw [hsd, List.length_cons, List.mem_cons]
        constructor
        · intro hlen; exact Or.inr (ih'.mp hlen)
        · rintro (h1 | h2)
          · exact absurd h1.symm hc
          · exact ih'.mpr h2

theorem majorMinorVersion_isSome_iff (v : String) :
    (majorMinorVersion? v).isSome = true ↔ '.' ∈ v.data := by
  rw [← splitDots_length_ge_two_iff]
  by_cases h : (splitDots v.data).length < 2
  · have h0 : majorMinorVersion? v = none := by simp [majorMinorVersion?, h]
    rw [h0]
    simp only [Option.isSome_none, Bool.false_eq_true, false_iff]
    omega
  · have h0 : ∃ s, majorMinorVersion? v = some s := by
      simp [majorMinorVersion?, h]
    obtain ⟨s, hs⟩ := h0
    rw [hs]
    simp only [Option.isSome_some, true_iff]
    omega

theorem matchLoop_ne_panics (requested : String) (all insts : List String)
    (h : ∀ i ∈ insts, (majorMinorVersion? i).isSome = true) :
    matchLoop requested all insts ≠ .panics := by
  induction insts with
  | nil => simp [matchLoop]
  | cons i rest ih =>
    have hi := h i (List.mem_cons_self i rest)
    obtain ⟨mi, hmi⟩ := Option.isSome_iff_exists.mp hi
    simp only [matchLoop, hmi]
    split
    · simp
    · exact ih (fun j hj => h j (List.mem_cons_of_mem i hj))

theorem matchLoop_spec (requested : String) (all insts : List String)
    (h : ∀ i ∈ insts, (majorMinorVersion? i).isSome = true) :
    (matchLoop requested all insts = .ok ↔
      ∃ i ∈ insts, majorMinorVersion? i = some requested) ∧
    ((∀ i ∈ insts, majorMinorVersion? i ≠ some requested) →
      matchLoop requested all insts = .notAvailable "pythonNotAvailable" requested all) := by
  induction insts with
  | nil => simp [matchLoop]
  | cons i rest ih =>
    have hi := h i (List.mem_cons_self i rest)
    obtain ⟨mi, hmi⟩ := Option.isSome_iff_exists.mp hi
    obtain ⟨ih1, ih2⟩ := ih (fun j hj => h j (List.mem_cons_of_mem i hj))
    by_cases hm : mi = requested
    · subst hm
      constructor
      · simp only [matchLoop, hmi, if_pos rfl]
        constructor
        · intro _; exact ⟨i, List.mem_cons_self i rest, hmi⟩
        · intro _; rfl
      · intro hno
        exact absurd hmi (hno i (List.mem_cons_self i rest))
    · have hstep : matchLoop requested all (i :: rest) = matchLoop requested all rest := by
        simp only [matchLoop, hmi, if_neg hm]
      constructor
      · rw [hstep, ih1]
        constructor
        · rintro ⟨j, hj, hjr⟩; exact ⟨j, List.mem_cons_of_mem i hj, hjr⟩
        · rintro ⟨j, hj, hjr⟩
          rcases List.mem_cons.mp hj with rfl | hj'
          · rw [hmi] at hjr
            exact absurd (Option.some.inj hjr) hm
          · exact ⟨j, hj', hjr⟩
      · intro hno
        rw [hstep]
        exact ih2 (fun j hj => hno j (List.mem_cons_of_mem i hj))

/-- C9: the Python major.minor comparison (`majorMinorVersion`) is defined
exactly on version strings containing a `'.'`; on any version string without
one (such as `"3"`) the Go slice `strings.Split(version, ".")[:2]` is out of
range, so `checkMatchingPython` panics — it neither succeeds nor returns an
error value — whereas it is panic-free whenever the (non-empty) requested
version and every server-reported installation version contain a `'.'`. -/
theorem checkMatchingPython_partial_without_dot :
    (∀ v : String, (majorMinorVersion? v).isSome = true ↔ '.' ∈ v.data)
    ∧ (∀ version : String, ∀ insts : List String,
        version ≠ "" → '.' ∉ version.data →
        checkMatchingPython version insts = .panics)
    ∧ (∀ version : String, ∀ insts : List String,
        version ≠ "" → '.' ∈ version.data → (∀ i ∈ insts, '.' ∈ i.data) →
        checkMatchingPython version insts ≠ .panics) := by
  refine ⟨majorMinorVersion_isSome_iff, ?_, ?_⟩
  · intro version insts hne hdot
    have h0 : majorMinorVersion? version = none := by
      rcases h : majorMinorVersion? version with _ | s
      · rfl
      · exact absurd ((majorMinorVersion_isSome_iff version).mp (by rw [h]; rfl)) hdot
    simp [checkMatchingPython, if_neg hne, h0]
  · intro version insts hne hdot hall
    obtain ⟨r, hr⟩ := Option.isSome_iff_exists.mp
      ((majorMinorVersion_isSome_iff version).mpr hdot)
    simp only [checkMatchingPython, if_neg hne, hr]
    exact matchLoop_ne_panics r insts insts
      (fun i hi => (majorMinorVersion_isSome_iff i).mpr (hall i hi))

/-- C9 witness: `checkMatchingPython` panics at the concrete dotless version
`"3"`, and is panic-free at `"3.9"` against installation `"3.10.1"`. -/
theorem checkMatchingPython_partial_without_dot_witness :
    checkMatchingPython "3" ["3.10.1"] = .panics
    ∧ checkMatchingPython "3.9" ["3.10.1"] ≠ .panics :=
  ⟨checkMatchingPython_partial_without_dot.2.1 "3" ["3.10.1"] (by decide) (by decide),
   checkMatchingPython_partial_without_dot.2.2 "3.9" ["3.10.1"] (by decide) (by decide)
     (by decide)⟩

/-- C2: for a non-empty requested Python version (all version strings
containing a `'.'`, the regime in which the check is total, cf. C9), the
check passes iff some server installation matches at major.minor granularity;
otherwise it fails with code `"pythonNotAvailable"`, details carrying the
requested major.minor string and, as the available list, the full version
strings of all server-reported installations in server order. -/
theorem checkMatchingPython_spec (version : String) (insts : List String)
    (hne : version ≠ "") (hdot : '.' ∈ version.data)
    (hall : ∀ i ∈ insts, '.' ∈ i.data) :
    (checkMatchingPython version insts = .ok ↔
      ∃ i ∈ insts, majorMinorVersion? i = majorMinorVersion? version)
    ∧ ((¬ ∃ i ∈ insts, majorMinorVersion? i = majorMinorVersion? version) →
        ∃ mm, majorMinorVersion? version = some mm ∧
          checkMatchingPython version insts
            = .notAvailable "pythonNotAvailable" mm insts) := by
  obtain ⟨r, hr⟩ := Option.isSome_iff_exists.mp
    ((majorMinorVersion_isSome_iff version).mpr hdot)
  have hsome : ∀ i ∈ insts, (majorMinorVersion? i).isSome = true :=
    fun i hi => (majorMinorVersion_isSome_iff i).mpr (hall i hi)
  obtain ⟨hok, hfail⟩ := matchLoop_spec r insts insts hsome
  have hunf : checkMatchingPython version insts = matchLoop r insts insts := by
    simp only [checkMatchingPython, if_neg hne, hr]
  constructor
  · rw [hunf, hok, hr]
  · intro hno
    refine ⟨r, hr, ?_⟩
    rw [hunf]
    apply hfail
    intro j hj hjr
    exact hno ⟨j, hj, by rw [hjr, hr]⟩

/-- C2 witness: the spec's scenario — requesting `"3.9"` against server
installations `"3.10.1"` and `"3.11.2"` fails with code `"pythonNotAvailable"`
and available-versions list exactly `["3.10.1", "3.11.2"]`. -/
theorem checkMatchingPython_spec_witness :
    checkMatchingPython "3.9" ["3.10.1", "3.11.2"]
      = .notAvailable "pythonNotAvailable" "3.9" ["3.10.1", "3.11.2"] := by
  obtain ⟨mm, hmm, hres⟩ :=
    (checkMatchingPython_spec "3.9" ["3.10.1", "3.11.2"] (by decide) (by decide)
      (by decide)).2 (by decide)
  have : mm = "3.9" := by
    have : majorMinorVersion? "3.9" = some "3.9" := by decide
    rw [this] at hmm
    exact (Option.some.inj hmm).symm
  rw [this] at hres
  exact hres

/-- C3 counterexample: with `min-processes` configured to `5` and
`max-processes` configured to `0` (server defaults `0`), the effective
minimum `5` exceeds the effective maximum `0`, yet
`checkMinMaxIntWithDefaults` reports no error at all — a zero effective
maximum is treated as "no limit", so no `minGreaterThanMax` error is
produced, contradicting the claim that `min > max` always yields the
dedicated code. -/
theorem checkMinMax_counterexample :
    (Option.getD (some (5 : Int)) 0 > Option.getD (some (0 : Int)) 0)
    ∧ checkMinMaxIntWithDefaults "min-processes" (some 5) 0
        "max-processes" (some 0) 0 = .ok := by
  constructor
  · decide
  · rfl

/-- C3 (amended): whenever the effective minimum exceeds the effective
maximum **and the effective maximum is nonzero** (a zero effective maximum
means "no limit enforced"), `checkMinMaxIntWithDefaults` and
`checkMinMaxFloatWithDefaults` fail with the dedicated `minGreaterThanMax`
code carrying both config keys; they never return the generic
`valueOutOfRange` code; and an `ok` result means the max was zero or
`min ≤ max`. -/
theorem checkMinMax_dedicated_code :
    (∀ (minAttr maxAttr : String) (cfgMin cfgMax : Option Int) (defMin defMax : Int),
      (cfgMax.getD defMax ≠ 0 → cfgMin.getD defMin > cfgMax.getD defMax →
        checkMinMaxIntWithDefaults minAttr cfgMin defMin maxAttr cfgMax defMax
          = .minGreaterThanMax minAttr maxAttr (cfgMin.getD defMin) (cfgMax.getD defMax))
      ∧ (∀ k v mn mx, checkMinMaxIntWithDefaults minAttr cfgMin defMin maxAttr cfgMax defMax
          ≠ .valueOutOfRange k v mn mx)
      ∧ (checkMinMaxIntWithDefaults minAttr cfgMin defMin maxAttr cfgMax defMax = .ok →
          cfgMax.getD defMax = 0 ∨ cfgMin.getD defMin ≤ cfgMax.getD defMax))
    ∧ (∀ (minAttr maxAttr : String) (cfgMin cfgMax : Option Rat) (defMin defMax : Rat),
      (cfgMax.getD defMax ≠ 0 → cfgMin.getD defMin > cfgMax.getD defMax →
        checkMinMaxFloatWithDefaults minAttr cfgMin defMin maxAttr cfgMax defMax
          = .minGreaterThanMax minAttr maxAttr (cfgMin.getD defMin) (cfgMax.getD defMax))
      ∧ (∀ k v mn mx, checkMinMaxFloatWithDefaults minAttr cfgMin defMin maxAttr cfgMax defMax
          ≠ .valueOutOfRange k v mn mx)
      ∧ (checkMinMaxFloatWithDefaults minAttr cfgMin defMin maxAttr cfgMax defMax = .ok →
          cfgMax.getD defMax = 0 ∨ cfgMin.getD defMin ≤ cfgMax.getD defMax)) := by
  constructor
  · intro minAttr maxAttr cfgMin cfgMax defMin defMax
    refine ⟨?_, ?_, ?_⟩
    · intro hnz hgt
      simp only [checkMinMaxIntWithDefaults, if_neg hnz, if_pos hgt]
    · intro k v mn mx
      simp only [checkMinMaxIntWithDefaults]
      split
      · simp
      · split <;> simp
    · intro hok
      by_cases hz : cfgMax.getD defMax = 0
      · exact Or.inl hz
      · refine Or.inr ?_
        by_contra hgt
        push_neg at hgt
        simp only [checkMinMaxIntWithDefaults, if_neg hz, if_pos hgt] at hok
        exact RangeCheck.noConfusion hok
  · intro minAttr maxAttr cfgMin cfgMax defMin defMax
    refine ⟨?_, ?_, ?_⟩
    · intro hnz hgt
      simp only [checkMinMaxFloatWithDefaults, if_neg hnz, if_pos hgt]
    · intro k v mn mx
      simp only [checkMinMaxFloatWithDefaults]
      split
      · simp
      · split <;> simp
    · intro hok
      by_cases hz : cfgMax.getD defMax = 0
      · exact Or.inl hz
      · refine Or.inr ?_
        by_contra hgt
        push_neg at hgt
        simp only [checkMinMaxFloatWithDefaults, if_neg hz, if_pos hgt] at hok
        exact RangeCheck.noConfusion hok

/-- C3 witness: configured `min-processes = 5`, `max-processes = 1` (nonzero)
yields the dedicated `minGreaterThanMax` error for both the integer and the
float variants. -/
theorem checkMinMax_dedicated_code_witness :
    checkMinMaxIntWithDefaults "min-processes" (some 5) 0 "max-processes" (some 1) 0
      = .minGreaterThanMax "min-processes" "max-processes" 5 1
    ∧ checkMinMaxFloatWithDefaults "cpu-request" (some 5) 0 "cpu-limit" (some 1) 0
      = .minGreaterThanMax "cpu-request" "cpu-limit" 5 1 :=
  ⟨(checkMinMax_dedicated_code.1 "min-processes" "max-processes"
      (some 5) (some 1) 0 0).1 (by decide) (by decide),
   (checkMinMax_dedicated_code.2 "cpu-request" "cpu-limit"
      (some 5) (some 1) 0 0).1 (by norm_num) (by norm_num)⟩

end Capabilities

namespace Credentials

/-- The reserved GUID bound to the environment-variable-derived credential
(`EnvVarGUID` in `credentials.go`). -/
def EnvVarGUID : String := "00000000-0000-0000-0000-000000000000"

/-- `CurrentVersion` in `credentials.go`: only version 0 is defined. -/
def CurrentVersion : Nat := 0

/-- `Credential` from `credentials.go`. -/
structure Credential where
  guid : String
  name : String
  url : String
  apiKey : String
  deriving DecidableEq, Repr

/-- A `json.RawMessage` payload, as far as decoding is concerned: it either
unmarshals into a `Credential` or it does not. -/
inductive Payload where
  | cred (c : Credential)
  | invalid (raw : String)
  deriving DecidableEq, Repr

/-- `CredentialRecord` from `credentials.go`: the versioned envelope. -/
structure CredentialRecord where
  guid : String
  version : Nat
  data : Payload
  deriving DecidableEq, Repr

/-- The credential table (`CredentialTable = map[string]CredentialRecord`),
embedded as an association list: one concrete iteration order of the Go map. -/
abbrev CredentialTable := List (String × CredentialRecord)

/-- The errors of the credentials package (declared next to
`credentials.go`; each constructor is one of the error types the service
returns, as used at its call sites). -/
inductive CredError where
  | corrupted (guid : String)
  | versionErr (version : Nat)
  | notFound (guid : String)
  | envURLDelete
  | envURLCollision (name url : String)
  | urlCollision (name url : String)
  | envNameCollision (name url : String)
  | nameCollision (name url : String)
  deriving DecidableEq, Repr

/-- `CredentialRecord.ToCredential` from `credentials.go`: dispatch on
`version`; version 0 unmarshals the payload (a failure is a
`CorruptedError` carrying the record's GUID); any other version is a
`VersionError`. -/
def toCredential (cr : CredentialRecord) : Except CredError Credential :=
  match cr.version with
  | 0 =>
    match cr.data with
    | .cred c => .ok c
    | .invalid _ => .error (.corrupted cr.guid)
  | Nat.succ v => .error (.versionErr (Nat.succ v))

/-- Modelled from the spec: `util.NormalizeServerURL` is not under `src/`
(only its callers in `credentials.go` are).  Per the spec, normalization is
case-insensitive and trailing-slash-insensitive: lower-case the URL and drop
trailing `'/'` characters. -/
def normalizeServerURL (url : String) : String :=
  String.mk (((url.data.map Char.toLower).reverse.dropWhile (· = '/')).reverse)

/-- The two well-known environment variables consumed by
`EnvCredentialRecordFactory`. -/
structure Env where
  connectServer : String
  connectApiKey : String
  deriving DecidableEq, Repr

/-- `CredentialsService.EnvCredentialRecordFactory` from `credentials.go`:
when both `CONNECT_SERVER` and `CONNECT_API_KEY` are non-empty, synthesize a
version-`CurrentVersion` record under the reserved `EnvVarGUID` whose
credential holds the normalized server URL and the API key; otherwise no
record.  (The display name, which Go derives by URL-parsing, is modelled
from the spec as a function of the normalized URL; no claim depends on it.) -/
def envCredentialRecord (env : Env) : Option CredentialRecord :=
  if env.connectServer ≠ "" ∧ env.connectApiKey ≠ "" then
    let u := normalizeServerURL env.connectServer
    some
      { guid := EnvVarGUID
        version := CurrentVersion
        data := .cred
          { guid := EnvVarGUID
            name := "Env: " ++ u
            url := u
            apiKey := env.connectApiKey } }
  else
    none

/-- Go map lookup `table[guid]`. -/
def lookupGuid (t : CredentialTable) (guid : String) : Option CredentialRecord :=
  (t.find? (fun kv => kv.1 = guid)).map (·.2)

/-- Go map `delete(table, guid)`. -/
def removeGuid (t : CredentialTable) (guid : String) : CredentialTable :=
  t.filter (fun kv => kv.1 ≠ guid)

/-- Go map assignment `table[guid] = record`. -/
def setGuid (t : CredentialTable) (guid : String) (r : CredentialRecord) : CredentialTable :=
  removeGuid t guid ++ [(guid, r)]

/-- `CredentialsService.load` from `credentials.go`: the keyring table with
the environment credential (when present) inserted under `EnvVarGUID`. -/
def load (env : Env) (stored : CredentialTable) : CredentialTable :=
  match envCredentialRecord env with
  | some r => setGuid stored EnvVarGUID r
  | none => stored

/-- `CredentialsService.save` from `credentials.go`: the blob written to the
keyring is the table with any `EnvVarGUID` entry removed first. -/
def saveBlob (t : CredentialTable) : CredentialTable :=
  removeGuid t EnvVarGUID

/-- `CredentialsService.Get` from `credentials.go`. -/
def getOp (env : Env) (stored : CredentialTable) (guid : String) :
    Except CredError Credential :=
  match lookupGuid (load env stored) guid with
  | none => .error (.notFound guid)
  | some cr => toCredential cr

/-- The record-decoding loop of `CredentialsService.List`. -/
def listLoop : CredentialTable → Except CredError (List Credential)
  | [] => .ok []
  | (_, cr) :: rest =>
    match toCredential cr with
    | .error e => .error e
    | .ok c =>
      match listLoop rest with
      | .error e => .error e
      | .ok cs => .ok (c :: cs)

/-- `CredentialsService.List` from `credentials.go`: decode every loaded
record, propagating the first decode error. -/
def listOp (env : Env) (stored : CredentialTable) : Except CredError (List Credential) :=
  listLoop (load env stored)

/-- `CredentialsService.Delete` from `credentials.go`.  The second component
is the blob written to the secure store, when one is written at all. -/
def deleteOp (env : Env) (stored : CredentialTable) (guid : String) :
    Except CredError Unit × Option CredentialTable :=
  match lookupGuid (load env stored) guid with
  | none => (.error (.notFound guid), none)
  | some _ =>
    if guid = EnvVarGUID then (.error .envURLDelete, none)
    else (.ok (), some (saveBlob (removeGuid (load env stored) guid)))

/-- The collision/decoding scan loop of `CredentialsService.Set`: for each
record in order, a decode failure is a `CorruptedError` with that record's
GUID; then the stored URL is compared against the normalized new URL, then
the name — with env-specific error codes when the colliding credential is
the environment-derived one. -/
def setScan : CredentialTable → String → String → Option CredError
  | [], _, _ => none
  | (guid, record) :: rest, name, normalizedUrl =>
    match toCredential record with
    | .error _ => some (.corrupted guid)
    | .ok cred =>
      if cred.url = normalizedUrl then
        some (if cred.guid = EnvVarGUID then
          .envURLCollision name normalizedUrl
        else
          .urlCollision name normalizedUrl)
      else if cred.name = name then
        some (if cred.guid = EnvVarGUID then
          .envNameCollision name normalizedUrl
        else
          .nameCollision name normalizedUrl)
      else setScan rest name normalizedUrl

/-- `CredentialsService.Set` from `credentials.go`.  `newGuid` stands for the
freshly drawn UUIDv4.  The second component is the blob written to the
secure store, when one is written at all. -/
def setOp (env : Env) (stored : CredentialTable) (name url apiKey newGuid : String) :
    Except CredError Credential × Option CredentialTable :=
  match setScan (load env stored) name (normalizeServerURL url) with
  | some e => (.error e, none)
  | none =>
    (.ok { guid := newGuid, name := name, url := normalizeServerURL url, apiKey := apiKey },
      some (saveBlob (setGuid (load env stored) newGuid
        { guid := newGuid, version := CurrentVersion,
          data := .cred { guid := newGuid, name := name,
                          url := normalizeServerURL url, apiKey := apiKey } })))

theorem removeGuid_keys (t : CredentialTable) (g : String) :
    ∀ kv ∈ removeGuid t g, kv.1 ≠ g := by
  intro kv hkv
  have := List.of_mem_filter hkv
  simpa using this

theorem lookupGuid_append_left_none (l l2 : CredentialTable) (g : String)
    (h : ∀ kv ∈ l, kv.1 ≠ g) :
    lookupGuid (l ++ l2) g = lookupGuid l2 g := by
  induction l with
  | nil => rfl
  | cons kv rest ih =>
    have hk : kv.1 ≠ g := h kv (List.mem_cons_self kv rest)
    have hd : (decide (kv.1 = g)) = false := by simpa using hk
    simp only [List.cons_append, lookupGuid, List.find?, hd]
    simpa [lookupGuid] using ih (fun kv' hkv' => h kv' (List.mem_cons_of_mem kv hkv'))

theorem lookupGuid_removeGuid_self (t : CredentialTable) (g : String) :
    lookupGuid (removeGuid t g) g = none := by
  have h := removeGuid_keys t g
  have := lookupGuid_append_left_none (removeGuid t g) [] g h
  simpa using this

theorem lookupGuid_setGuid_self (t : CredentialTable) (g : String)
    (r : CredentialRecord) :
    lookupGuid (setGuid t g r) g = some r := by
  unfold setGuid
  rw [lookupGuid_append_left_none _ _ g (removeGuid_keys t g)]
  simp [lookupGuid, List.find?]

theorem lookupGuid_mem (t : CredentialTable) (g : String) (r : CredentialRecord)
    (h : lookupGuid t g = some r) : (g, r) ∈ t := by
  unfold lookupGuid at h
  rcases hf : t.find? (fun kv => kv.1 = g) with _ | kv
  · rw [hf] at h; exact absurd h (by simp)
  · rw [hf] at h
    have hmem := List.mem_of_find?_eq_some hf
    have hp := List.find?_some hf
    have hk : kv.1 = g := by simpa using hp
    have hv : kv.2 = r := by simpa using h
    have : kv = (g, r) := by
      cases kv with
      | mk a b => simp only at hk hv; rw [hk, hv]
    rwa [this] at hmem

/-- C5: the environment credential is never persisted.  Every blob written to
the secure store — the direct `save` image, and the blobs written by `Set`
and `Delete` — contains no record under the reserved `EnvVarGUID`; yet every
load performed while the two environment variables are set merges the
environment-derived record into the returned table under that GUID. -/
theorem envCredential_never_persisted :
    (∀ t : CredentialTable, lookupGuid (saveBlob t) EnvVarGUID = none)
    ∧ (∀ (env : Env) (stored : CredentialTable),
        env.connectServer ≠ "" → env.connectApiKey ≠ "" →
        ∃ r, envCredentialRecord env = some r
          ∧ lookupGuid (load env stored) EnvVarGUID = some r)
    ∧ (∀ (env : Env) (stored : CredentialTable) (name url apiKey newGuid : String)
        (b : CredentialTable),
        (setOp env stored name url apiKey newGuid).2 = some b →
        lookupGuid b EnvVarGUID = none)
    ∧ (∀ (env : Env) (stored : CredentialTable) (guid : String) (b : CredentialTable),
        (deleteOp env stored guid).2 = some b →
        lookupGuid b EnvVarGUID = none) := by
  refine ⟨?_, ?_, ?_, ?_⟩
  · intro t
    exact lookupGuid_removeGuid_self t EnvVarGUID
  · intro env stored hs hk
    have he : envCredentialRecord env ≠ none := by
      simp only [envCredentialRecord, if_pos (And.intro hs hk)]
      simp
    rcases h : envCredentialRecord env with _ | r
    · exact absurd h he
    · refine ⟨r, rfl, ?_⟩
      unfold load
      rw [h]
      exact lookupGuid_setGuid_self stored EnvVarGUID r
  · intro env stored name url apiKey newGuid b hb
    unfold setOp at hb
    rcases hscan : setScan (load env stored) name (normalizeServerURL url) with _ | e
    · rw [hscan] at hb
      simp only [Option.some.injEq] at hb
      rw [← hb]
      exact lookupGuid_removeGuid_self _ EnvVarGUID
    · rw [hscan] at hb
      exact absurd hb (by simp)
  · intro env stored guid b hb
    unfold deleteOp at hb
    rcases hl : lookupGuid (load env stored) guid with _ | r
    · rw [hl] at hb; exact absurd hb (by simp)
    · rw [hl] at hb
      by_cases hg : guid = EnvVarGUID
      · rw [if_pos hg] at hb; exact absurd hb (by simp)
      · rw [if_neg hg] at hb
        simp only [Option.some.injEq] at hb
        rw [← hb]
        exact lookupGuid_removeGuid_self _ EnvVarGUID

/-- C5 witness: with `CONNECT_SERVER = "https://x"` and
`CONNECT_API_KEY = "k"`, loading an empty store exposes the environment
credential under the reserved GUID, while saving a table holding a record
under the reserved GUID drops it. -/
theorem envCredential_never_persisted_witness :
    lookupGuid (load ⟨"https://x", "k"⟩ []) EnvVarGUID ≠ none
    ∧ lookupGuid (saveBlob [(EnvVarGUID, ⟨EnvVarGUID, 0, .invalid ""⟩)]) EnvVarGUID = none := by
  constructor
  · obtain ⟨r, _, hl⟩ :=
      envCredential_never_persisted.2.1 ⟨"https://x", "k"⟩ [] (by decide) (by decide)
    rw [hl]
    simp
  · exact envCredential_never_persisted.1 [(EnvVarGUID, ⟨EnvVarGUID, 0, .invalid ""⟩)]

/-- C7: `Delete` on the reserved environment GUID always fails — with the
environment-specific delete error when the GUID is present in the loaded
table, and with a not-found error otherwise — and in either case nothing is
written back to the secure store. -/
theorem delete_env_guid_always_fails (env : Env) (stored : CredentialTable) :
    (∃ e, (deleteOp env stored EnvVarGUID).1 = .error e)
    ∧ (deleteOp env stored EnvVarGUID).2 = none := by
  unfold deleteOp
  rcases hl : lookupGuid (load env stored) EnvVarGUID with _ | r
  · exact ⟨⟨.notFound EnvVarGUID, rfl⟩, rfl⟩
  · simp only [if_pos rfl]
    exact ⟨⟨.envURLDelete, rfl⟩, rfl⟩

theorem setScan_append_skip (name nurl : String) (pre rest : CredentialTable)
    (h : ∀ kv ∈ pre, ∃ c, toCredential kv.2 = .ok c ∧ c.url ≠ nurl ∧ c.name ≠ name) :
    setScan (pre ++ rest) name nurl = setScan rest name nurl := by
  induction pre with
  | nil => rfl
  | cons kv pre' ih =>
    obtain ⟨c, hok, hu, hn⟩ := h kv (List.mem_cons_self kv pre')
    cases kv with
    | mk g r =>
      simp only [List.cons_append, setScan, hok]
      rw [if_neg hu, if_neg hn]
      exact ih (fun kv' hkv' => h kv' (List.mem_cons_of_mem _ hkv'))

theorem setScan_none_iff (name nurl : String) (t : CredentialTable) :
    setScan t name nurl = none ↔
      ∀ kv ∈ t, ∃ c, toCredential kv.2 = .ok c ∧ c.url ≠ nurl ∧ c.name ≠ name := by
  induction t with
  | nil => simp [setScan]
  | cons kv rest ih =>
    cases kv with
    | mk g r =>
      rcases hok : toCredential r with e | c
      · simp only [setScan, hok]
        constructor
        · intro h; exact absurd h (by simp)
        · intro h
          obtain ⟨c, hc, _, _⟩ := h (g, r) (List.mem_cons_self _ rest)
          rw [hok] at hc
          exact absurd hc (by simp)
      · by_cases hu : c.url = nurl
        · simp only [setScan, hok, if_pos hu]
          constructor
          · intro h; exact absurd h (by simp)
          · intro h
            obtain ⟨c', hc', hu', _⟩ := h (g, r) (List.mem_cons_self _ rest)
            rw [hok] at hc'
            have hcc : c = c' := by simpa using hc'
            rw [← hcc] at hu'
            exact absurd hu hu'
        · by_cases hn : c.name = name
          · simp only [setScan, hok, if_neg hu, if_pos hn]
            constructor
            · intro h; exact absurd h (by simp)
            · intro h
              obtain ⟨c', hc', _, hn'⟩ := h (g, r) (List.mem_cons_self _ rest)
              rw [hok] at hc'
              have hcc : c = c' := by simpa using hc'
              rw [← hcc] at hn'
              exact absurd hn hn'
          · simp only [setScan, hok, if_neg hu, if_neg hn]
            rw [ih]
            constructor
            · intro h kv' hkv'
              rcases List.mem_cons.mp hkv' with rfl | hm
              · exact ⟨c, hok, hu, hn⟩
              · exact h kv' hm
            · intro h kv' hkv'
              exact h kv' (List.mem_cons_of_mem _ hkv')

/-- C6 counterexample: the loaded table holds, in iteration order, first a
credential named `"taken"` (URL `https://a`) and then one with URL
`https://b`.  `Set("taken", "https://b", …)` hits the *name* collision on
the first record before ever reaching the second record's *URL* collision,
so it fails with a name-collision error even though an existing credential's
stored URL equals the normalized new URL — refuting the claim that a URL
match always yields a URL-collision error. -/
theorem setOp_collision_order_counterexample :
    (("g2", (⟨"g2", 0, .cred ⟨"g2", "other", "https://b", "k2"⟩⟩ : CredentialRecord)) ∈
        load ⟨"", ""⟩
          [("g1", ⟨"g1", 0, .cred ⟨"g1", "taken", "https://a", "k1"⟩⟩),
           ("g2", ⟨"g2", 0, .cred ⟨"g2", "other", "https://b", "k2"⟩⟩)]
      ∧ toCredential ⟨"g2", 0, .cred ⟨"g2", "other", "https://b", "k2"⟩⟩
          = .ok ⟨"g2", "other", "https://b", "k2"⟩
      ∧ normalizeServerURL "https://b" = "https://b")
    ∧ (setOp ⟨"", ""⟩
        [("g1", ⟨"g1", 0, .cred ⟨"g1", "taken", "https://a", "k1"⟩⟩),
         ("g2", ⟨"g2", 0, .cred ⟨"g2", "other", "https://b", "k2"⟩⟩)]
        "taken" "https://b" "k" "new").1
      = .error (.nameCollision "taken" "https://b") := by
  refine ⟨⟨?_, rfl, rfl⟩, rfl⟩
  decide

/-- C6 (amended): `Set` scans the loaded table in iteration order and fails
at the *first* colliding credential — the URL comparison made before the
name comparison for each record — returning the env-specific collision code
exactly when that credential is the environment-derived one; `Set` succeeds
iff every record decodes and no credential matches the new normalized URL or
name; and on every collision nothing is written to the store. -/
theorem setOp_collision_spec (env : Env) (stored : CredentialTable)
    (name url apiKey newGuid : String) :
    (∀ pre kv post, load env stored = pre ++ kv :: post →
      (∀ kv' ∈ pre, ∃ c', toCredential kv'.2 = .ok c'
        ∧ c'.url ≠ normalizeServerURL url ∧ c'.name ≠ name) →
      ∀ c, toCredential kv.2 = .ok c →
        ((c.url = normalizeServerURL url →
          (setOp env stored name url apiKey newGuid).1 = .error
            (if c.guid = EnvVarGUID then
              .envURLCollision name (normalizeServerURL url)
            else
              .urlCollision name (normalizeServerURL url))
          ∧ (setOp env stored name url apiKey newGuid).2 = none)
        ∧ (c.url ≠ normalizeServerURL url → c.name = name →
          (setOp env stored name url apiKey newGuid).1 = .error
            (if c.guid = EnvVarGUID then
              .envNameCollision name (normalizeServerURL url)
            else
              .nameCollision name (normalizeServerURL url))
          ∧ (setOp env stored name url apiKey newGuid).2 = none)))
    ∧ ((∀ kv ∈ load env stored, ∃ c, toCredential kv.2 = .ok c
          ∧ c.url ≠ normalizeServerURL url ∧ c.name ≠ name) →
        ∃ cr b, setOp env stored name url apiKey newGuid = (.ok cr, some b))
    ∧ (∀ cr, (setOp env stored name url apiKey newGuid).1 = .ok cr →
        ∀ kv ∈ load env stored, ∀ c, toCredential kv.2 = .ok c →
          c.url ≠ normalizeServerURL url ∧ c.name ≠ name) := by
  refine ⟨?_, ?_, ?_⟩
  · intro pre kv post htab hpre c hok
    have hscan0 : setScan (load env stored) name (normalizeServerURL url)
        = setScan (kv :: post) name (normalizeServerURL url) := by
      rw [htab]
      exact setScan_append_skip name (normalizeServerURL url) pre (kv :: post) hpre
    cases kv with
    | mk g r =>
      constructor
      · intro hu
        have hscan : setScan (load env stored) name (normalizeServerURL url)
            = some (if c.guid = EnvVarGUID then
                .envURLCollision name (normalizeServerURL url)
              else
                .urlCollision name (normalizeServerURL url)) := by
          rw [hscan0]
          simp only [setScan, hok]
          rw [if_pos hu]
        constructor
        · simp only [setOp, hscan]
        · simp only [setOp, hscan]
      · intro hu hn
        have hscan : setScan (load env stored) name (normalizeServerURL url)
            = some (if c.guid = EnvVarGUID then
                .envNameCollision name (normalizeServerURL url)
              else
                .nameCollision name (normalizeServerURL url)) := by
          rw [hscan0]
          simp only [setScan, hok]
          rw [if_neg hu, if_pos hn]
        constructor
        · simp only [setOp, hscan]
        · simp only [setOp, hscan]
  · intro hall
    have hscan : setScan (load env stored) name (normalizeServerURL url) = none :=
      (setScan_none_iff name (normalizeServerURL url) (load env stored)).mpr hall
    refine ⟨{ guid := newGuid, name := name, url := normalizeServerURL url, apiKey := apiKey },
      saveBlob (setGuid (load env stored) newGuid
        { guid := newGuid, version := CurrentVersion,
          data := .cred { guid := newGuid, name := name,
                          url := normalizeServerURL url, apiKey := apiKey } }), ?_⟩
    simp only [setOp, hscan]
  · intro cr hok kv hkv c hc
    rcases hscan : setScan (load env stored) name (normalizeServerURL url) with _ | e
    · obtain ⟨c', hc', hu', hn'⟩ :=
        (setScan_none_iff name (normalizeServerURL url) (load env stored)).mp hscan kv hkv
      rw [hc] at hc'
      have hcc : c = c' := by simpa using hc'
      rw [hcc]
      exact ⟨hu', hn'⟩
    · simp only [setOp, hscan] at hok
      exact absurd hok (by simp)

/-- C6 witness: a single stored credential with URL `https://a`; `Set` of a
new credential normalizing to the same URL fails with the ordinary
URL-collision error and writes nothing. -/
theorem setOp_collision_spec_witness :
    (setOp ⟨"", ""⟩ [("g1", ⟨"g1", 0, .cred ⟨"g1", "n1", "https://a", "k1"⟩⟩)]
        "n2" "https://A/" "k" "new").1 = .error (.urlCollision "n2" "https://a")
    ∧ (setOp ⟨"", ""⟩ [("g1", ⟨"g1", 0, .cred ⟨"g1", "n1", "https://a", "k1"⟩⟩)]
        "n2" "https://A/" "k" "new").2 = none := by
  have h := (setOp_collision_spec ⟨"", ""⟩
      [("g1", ⟨"g1", 0, .cred ⟨"g1", "n1", "https://a", "k1"⟩⟩)]
      "n2" "https://A/" "k" "new").1
      [] ("g1", ⟨"g1", 0, .cred ⟨"g1", "n1", "https://a", "k1"⟩⟩) []
      (by decide) (by intro kv hkv; exact absurd hkv (by simp))
      ⟨"g1", "n1", "https://a", "k1"⟩ rfl
  obtain ⟨h1, h2⟩ := h.1 (by decide)
  refine ⟨?_, h2⟩
  rw [h1]
  rfl

theorem listLoop_error_of_bad (t : CredentialTable)
    (h : ∃ kv ∈ t, ∃ e, toCredential kv.2 = .error e) :
    ∃ e, listLoop t = .error e ∧ ∃ kv ∈ t, toCredential kv.2 = .error e := by
  induction t with
  | nil => simp at h
  | cons kv rest ih =>
    cases kv with
    | mk g r =>
      rcases hok : toCredential r with e | c
      · exact ⟨e, by simp only [listLoop, hok],
          ⟨(g, r), List.mem_cons_self _ rest, hok⟩⟩
      · obtain ⟨kv', hkv', e', he'⟩ := h
        rcases List.mem_cons.mp hkv' with rfl | hm
        · rw [hok] at he'
          exact absurd he' (by simp)
        · obtain ⟨e, hloop, kv'', hkv'', he''⟩ := ih ⟨kv', hm, e', he'⟩
          refine ⟨e, ?_, kv'', List.mem_cons_of_mem _ hkv'', he''⟩
          simp only [listLoop, hok, hloop]

/-- C10 counterexample: the loaded table holds, in iteration order, first a
decodable credential whose URL collides with the new one and then a record
whose payload does not decode.  `Set` fails with the URL-collision error of
the first record, not with a corrupted-record error — refuting the claim
that `Set` always fails with a corrupted-record error whenever an
undecodable record is present. -/
theorem setOp_corrupted_counterexample :
    (("g3", (⟨"g3", 0, .invalid "oops"⟩ : CredentialRecord)) ∈
        load ⟨"", ""⟩
          [("g1", ⟨"g1", 0, .cred ⟨"g1", "n1", "https://a", "k"⟩⟩),
           ("g3", ⟨"g3", 0, .invalid "oops"⟩)]
      ∧ toCredential ⟨"g3", 0, .invalid "oops"⟩ = .error (.corrupted "g3"))
    ∧ (setOp ⟨"", ""⟩
        [("g1", ⟨"g1", 0, .cred ⟨"g1", "n1", "https://a", "k"⟩⟩),
         ("g3", ⟨"g3", 0, .invalid "oops"⟩)]
        "x" "https://a/" "k" "new").1 = .error (.urlCollision "x" "https://a")
    ∧ (setOp ⟨"", ""⟩
        [("g1", ⟨"g1", 0, .cred ⟨"g1", "n1", "https://a", "k"⟩⟩),
         ("g3", ⟨"g3", 0, .invalid "oops"⟩)]
        "x" "https://a/" "k" "new").1 ≠ .error (.corrupted "g3") := by
  refine ⟨⟨?_, rfl⟩, rfl, ?_⟩
  · decide
  · intro h
    rw [show (setOp ⟨"", ""⟩
        [("g1", ⟨"g1", 0, .cred ⟨"g1", "n1", "https://a", "k"⟩⟩),
         ("g3", ⟨"g3", 0, .invalid "oops"⟩)]
        "x" "https://a/" "k" "new").1 = .error (.urlCollision "x" "https://a") from rfl] at h
    injection h with h4
    exact absurd h4 (by decide)

/-- C10 (amended): with an undecodable record in the loaded table, `Get` of
that record propagates the decode error itself (`CorruptedError` for a bad
version-0 payload, `VersionError` for an unrecognized version), `List`
propagates the decode error of some undecodable record, and `Set` always
fails without writing; when the undecodable record is reached before any
collision, `Set`'s error is the corrupted-record error carrying that
record's GUID — even when the underlying decode failure is a version
error. -/
theorem ops_with_undecodable_record (env : Env) (stored : CredentialTable)
    (guid : String) (r : CredentialRecord) (name url apiKey newGuid : String)
    (hlook : lookupGuid (load env stored) guid = some r)
    (hbad : ∃ e, toCredential r = .error e) :
    (getOp env stored guid = toCredential r)
    ∧ (∃ e, listOp env stored = .error e
        ∧ ∃ kv ∈ load env stored, toCredential kv.2 = .error e)
    ∧ (∃ e, (setOp env stored name url apiKey newGuid).1 = .error e)
    ∧ (setOp env stored name url apiKey newGuid).2 = none
    ∧ (∀ pre post, load env stored = pre ++ (guid, r) :: post →
        (∀ kv' ∈ pre, ∃ c', toCredential kv'.2 = .ok c'
          ∧ c'.url ≠ normalizeServerURL url ∧ c'.name ≠ name) →
        (setOp env stored name url apiKey newGuid).1 = .error (.corrupted guid)) := by
  obtain ⟨e0, he0⟩ := hbad
  have hmem : (guid, r) ∈ load env stored := lookupGuid_mem _ _ _ hlook
  have hscanbad : setScan (load env stored) name (normalizeServerURL url) ≠ none := by
    intro hnone
    obtain ⟨c, hc, _, _⟩ :=
      (setScan_none_iff name (normalizeServerURL url) (load env stored)).mp hnone
        (guid, r) hmem
    rw [he0] at hc
    exact Except.noConfusion hc
  refine ⟨?_, ?_, ?_, ?_, ?_⟩
  · simp only [getOp, hlook]
  · exact listLoop_error_of_bad (load env stored) ⟨(guid, r), hmem, e0, he0⟩
  · rcases hscan : setScan (load env stored) name (normalizeServerURL url) with _ | e
    · exact absurd hscan hscanbad
    · exact ⟨e, by simp only [setOp, hscan]⟩
  · rcases hscan : setScan (load env stored) name (normalizeServerURL url) with _ | e
    · exact absurd hscan hscanbad
    · simp only [setOp, hscan]
  · intro pre post htab hpre
    have hscan : setScan (load env stored) name (normalizeServerURL url)
        = some (.corrupted guid) := by
      rw [htab, setScan_append_skip name (normalizeServerURL url) pre _ hpre]
      simp only [setScan]
      rw [he0]
    simp only [setOp, hscan]

/-- C10 witness: a single stored record with the unrecognized version 1 —
`Get` propagates the version error itself, while `Set` wraps the same decode
failure as a corrupted-record error carrying the record's GUID and writes
nothing. -/
theorem ops_with_undecodable_record_witness :
    getOp ⟨"", ""⟩ [("g4", ⟨"g4", 1, .cred ⟨"g4", "v1", "https://c", "k"⟩⟩)] "g4"
      = .error (.versionErr 1)
    ∧ (setOp ⟨"", ""⟩ [("g4", ⟨"g4", 1, .cred ⟨"g4", "v1", "https://c", "k"⟩⟩)]
        "n" "https://u" "k" "new").1 = .error (.corrupted "g4")
    ∧ (setOp ⟨"", ""⟩ [("g4", ⟨"g4", 1, .cred ⟨"g4", "v1", "https://c", "k"⟩⟩)]
        "n" "https://u" "k" "new").2 = none := by
  have h := ops_with_undecodable_record ⟨"", ""⟩
      [("g4", ⟨"g4", 1, .cred ⟨"g4", "v1", "https://c", "k"⟩⟩)]
      "g4" ⟨"g4", 1, .cred ⟨"g4", "v1", "https://c", "k"⟩⟩
      "n" "https://u" "k" "new" (by decide) ⟨.versionErr 1, rfl⟩
  refine ⟨?_, ?_, h.2.2.2.1⟩
  · rw [h.1]; rfl
  · exact h.2.2.2.2 [] [] (by decide) (by intro kv hkv; exact absurd hkv (by simp))

end Credentials

namespace PyShiny

/-- ASCII letter, the `[A-Za-z]` part of the regex character classes in
`pyshiny.go`. -/
def isAsciiLetter (c : Char) : Bool :=
  ('A' ≤ c && c ≤ 'Z') || ('a' ≤ c && c ≤ 'z')

/-- ASCII digit, `[0-9]`. -/
def isAsciiDigit (c : Char) : Bool :=
  '0' ≤ c && c ≤ '9'

/-- `[A-Za-z0-9]` — note: the regex class in `pyshiny.go` does *not* include
the underscore. -/
def isAlnum (c : Char) : Bool :=
  isAsciiLetter c || isAsciiDigit c

/-- One lowercase hex digit, as produced by Go `fmt.Sprintf("%x", …)`. -/
def hexDigitChar (n : Nat) : Char :=
  if n < 10 then Char.ofNat (48 + n) else Char.ofNat (87 + n)

/-- Lowercase hex digits, most significant first, with explicit fuel so the
definition reduces by iota (the fuel is always sufficient below). -/
def hexCharsAux : Nat → Nat → List Char
  | 0, n => [hexDigitChar (n % 16)]
  | fuel + 1, n =>
    if n < 16 then [hexDigitChar n]
    else hexCharsAux fuel (n / 16) ++ [hexDigitChar (n % 16)]

/-- Lowercase hex digits of `n`, most significant first, no padding —
Go `fmt.Sprintf("%x", n)`. -/
def hexChars (n : Nat) : List Char :=
  hexCharsAux n n

/-- The first byte of the UTF-8 encoding of the code point `n`: the code
point itself below `0x80`, otherwise the lead byte `0xC0/0xE0/0xF0` carrying
the high bits, per the 2-, 3- and 4-byte UTF-8 forms. -/
def utf8LeadByte (n : Nat) : Nat :=
  if n < 0x80 then n
  else if n < 0x800 then 0xC0 + n / 0x40
  else if n < 0x10000 then 0xE0 + n / 0x1000
  else 0xF0 + n / 0x40000

/-- The replacement `fmt.Sprintf("_%x_", int(match[0]))` for one matched
character: `match[0]` is the first byte of the UTF-8 encoding of the matched
rune (equal to the code point only for ASCII), formatted in lowercase hex. -/
def escapeChar (c : Char) : List Char :=
  '_' :: (hexChars (utf8LeadByte c.toNat) ++ ['_'])

/-- `invalidPythonIdentifierRE.ReplaceAllStringFunc` over the entrypoint:
the regex `(^[0-9]|[^A-Za-z0-9])` matches single characters — a digit in
the leading position, and anywhere a character outside `[A-Za-z0-9]`
(including `'_'`) — each replaced by its `_hex_` escape. -/
def encodeFrom : Bool → List Char → List Char
  | _, [] => []
  | first, c :: rest =>
    (if (first && isAsciiDigit c) || !isAlnum c then escapeChar c else [c])
      ++ encodeFrom false rest

/-- `shinyExpressEntrypoint` from `pyshiny.go`: the fixed module-style
prefix followed by the escaped file path. -/
def shinyExpressEntrypoint (entrypoint : String) : String :=
  "shiny.express.app:" ++ String.mk (encodeFrom true entrypoint.data)

/-- The encoding as the claim words it: characters inside `[A-Za-z0-9_]`
(underscore included) left unchanged, all others replaced by the fixed
encoded form. -/
def encodeSpec : List Char → List Char
  | [] => []
  | c :: rest =>
    (if isAlnum c || c = '_' then [c] else escapeChar c) ++ encodeSpec rest

/-- The claim's version of the synthesized entrypoint. -/
def shinyExpressEntrypointSpec (entrypoint : String) : String :=
  "shiny.express.app:" ++ String.mk (encodeSpec entrypoint.data)

/-- A valid Python identifier over the ASCII word alphabet: non-empty, the
first character a letter or `'_'`, the rest letters, digits or `'_'`. -/
def validPyIdentifier (s : String) : Bool :=
  match s.data with
  | [] => false
  | c :: rest => (isAsciiLetter c || c = '_') && rest.all (fun d => isAlnum d || d = '_')

/-- C8 counterexample: the underscore lies inside the claim's preserved
class `[A-Za-z0-9_]`, but the code's regex class `[^A-Za-z0-9]` matches it,
so `"my_app.py"` is encoded as `"my_5f_app_2e_py"` — not the claim's
`"my_app_2e_py"`. -/
theorem shinyExpressEntrypoint_counterexample :
    shinyExpressEntrypoint "my_app.py" = "shiny.express.app:my_5f_app_2e_py"
    ∧ shinyExpressEntrypointSpec "my_app.py" = "shiny.express.app:my_app_2e_py"
    ∧ shinyExpressEntrypoint "my_app.py" ≠ shinyExpressEntrypointSpec "my_app.py" := by
  refine ⟨by decide, by decide, by decide⟩

theorem hexDigitChar_alnum (n : Nat) (h : n < 16) : isAlnum (hexDigitChar n) = true := by
  interval_cases n <;> decide

theorem hexCharsAux_alnum (fuel : Nat) :
    ∀ n, ∀ c ∈ hexCharsAux fuel n, isAlnum c = true := by
  induction fuel with
  | zero =>
    intro n c hc
    rw [hexCharsAux, List.mem_singleton] at hc
    subst hc
    exact hexDigitChar_alnum (n % 16) (Nat.mod_lt n (by omega))
  | succ fuel ih =>
    intro n c hc
    rw [hexCharsAux] at hc
    split at hc
    · rw [List.mem_singleton] at hc
      subst hc
      exact hexDigitChar_alnum n (by omega)
    · rcases List.mem_append.mp hc with h1 | h2
      · exact ih (n / 16) c h1
      · rw [List.mem_singleton] at h2
        subst h2
        exact hexDigitChar_alnum (n % 16) (Nat.mod_lt n (by omega))

theorem hexChars_alnum (n : Nat) : ∀ c ∈ hexChars n, isAlnum c = true :=
  hexCharsAux_alnum n n

theorem escapeChar_word (c : Char) :
    ∀ d ∈ escapeChar c, (isAlnum d || d = '_') = true := by
  intro d hd
  unfold escapeChar at hd
  rcases List.mem_cons.mp hd with rfl | hd'
  · simp
  · rcases List.mem_append.mp hd' with h1 | h2
    · rw [hexChars_alnum (utf8LeadByte c.toNat) d h1]
      rfl
    · rw [List.mem_singleton] at h2
      subst h2
      simp

theorem encodeFrom_word (first : Bool) (cs : List Char) :
    ∀ d ∈ encodeFrom first cs, (isAlnum d || d = '_') = true := by
  induction cs generalizing first with
  | nil => intro d hd; exact absurd hd (by simp [encodeFrom])
  | cons c rest ih =>
    intro d hd
    simp only [encodeFrom] at hd
    rcases List.mem_append.mp hd with h1 | h2
    · split at h1
      · exact escapeChar_word c d h1
      · next hk =>
        rw [List.mem_singleton] at h1
        subst h1
        have halnum : isAlnum d = true := by
          cases hia : isAlnum d
          · exact absurd (by rw [hia]; simp) hk
          · rfl
        rw [halnum]; rfl
    · exact ih false d h2

/-- C8 (amended): the synthesized entrypoint is the fixed prefix
`"shiny.express.app:"` followed by the file path encoded character by
character: a character outside `[A-Za-z0-9]` — the underscore included —
and also a digit in the leading position, is replaced by its fixed
`_hex_` escape (lowercase hex of the first UTF-8 byte of the character, the
code point itself for ASCII); all other characters
are kept; and for a non-empty path the encoded part is a valid Python
identifier. -/
theorem shinyExpressEntrypoint_encoding (e : String) (henonempty : e.data ≠ []) :
    (shinyExpressEntrypoint e = "shiny.express.app:" ++ String.mk (encodeFrom true e.data))
    ∧ (∀ c cs, encodeFrom true (c :: cs)
        = (if (isAsciiDigit c || !isAlnum c) then escapeChar c else [c]) ++ encodeFrom false cs)
    ∧ (∀ c cs, encodeFrom false (c :: cs)
        = (if isAlnum c then [c] else escapeChar c) ++ encodeFrom false cs)
    ∧ validPyIdentifier (String.mk (encodeFrom true e.data)) = true := by
  refine ⟨rfl, fun c cs => by simp [encodeFrom], ?_, ?_⟩
  · intro c cs
    cases h : isAlnum c <;> simp [encodeFrom, h]
  · rcases hd : e.data with _ | ⟨c, rest⟩
    · exact absurd hd henonempty
    · simp only [encodeFrom]
      by_cases hesc : ((true && isAsciiDigit c) || !isAlnum c) = true
      · rw [if_pos hesc]
        simp only [validPyIdentifier, escapeChar, List.cons_append]
        have hall : List.all (hexChars (utf8LeadByte c.toNat) ++ ['_'] ++ encodeFrom false rest)
            (fun d => isAlnum d || d = '_') = true := by
          rw [List.all_eq_true]
          intro d hdm
          rcases List.mem_append.mp hdm with h1 | h2
          · rcases List.mem_append.mp h1 with h3 | h4
            · rw [hexChars_alnum (utf8LeadByte c.toNat) d h3]; rfl
            · rw [List.mem_singleton] at h4; subst h4; simp
          · exact encodeFrom_word false rest d h2
        simp only [List.append_assoc] at hall ⊢
        rw [hall]
        simp
      · rw [if_neg hesc]
        have hnum : isAsciiDigit c = false := by
          cases hd2 : isAsciiDigit c
          · rfl
          · exact absurd (by rw [hd2]; simp) hesc
        have halnum : isAlnum c = true := by
          cases ha : isAlnum c
          · exact absurd (by rw [ha]; simp) hesc
          · rfl
        have hletter : isAsciiLetter c = true := by
          unfold isAlnum at halnum
          cases hl : isAsciiLetter c
          · rw [hl, hnum] at halnum
            exact absurd halnum (by simp)
          · rfl
        simp only [validPyIdentifier, List.singleton_append]
        rw [hletter]
        simp only [Bool.true_or, Bool.true_and]
        rw [List.all_eq_true]
        intro d hdm
        exact encodeFrom_word false rest d hdm

/-- C8 witness: for the concrete Shiny-Express entrypoint path `"app.py"`
the synthesized string is `"shiny.express.app:app_2e_py"`, a valid
identifier after the prefix. -/
theorem shinyExpressEntrypoint_encoding_witness :
    shinyExpressEntrypoint "app.py"
      = "shiny.express.app:" ++ String.mk (encodeFrom true "app.py".data)
    ∧ validPyIdentifier (String.mk (encodeFrom true "app.py".data)) = true :=
  ⟨(shinyExpressEntrypoint_encoding "app.py" (by decide)).1,
   (shinyExpressEntrypoint_encoding "app.py" (by decide)).2.2.2⟩

end PyShiny

namespace Orchestrator

/-- One observable action of `defaultPublisher.publishWithClient`
(`notebook.go`): the server API calls made through the client, plus the
local create-bundle work and deployment-record writes. -/
inductive Step where
  | testAuthentication
  | checkCapabilities
  | createDeployment
  | writeRecord
  | createBundle
  | uploadBundle (contentID : String)
  | updateDeployment (contentID : String)
  | setEnvVars (contentID : String)
  | deployBundle (contentID bundleID : String)
  | waitForTask (taskID : String)
  | validateDeployment (contentID : String)
  deriving DecidableEq, Repr

/-- The outcomes the client and filesystem produce during one publish:
each field decides whether the corresponding stage succeeds, and with what
server-assigned identifier. -/
structure Client where
  authOk : Bool
  capabilitiesOk : Bool
  createResult : Option String
  recordWriteOk : Bool
  bundleOk : Bool
  uploadResult : Option String
  updateOk : Bool
  envVarsOk : Bool
  deployResult : Option String
  waitOk : Bool
  validateOk : Bool
  deriving DecidableEq, Repr

/-- The straight-line tail of `publishWithClient` after a content id is in
hand — in the source this is literally the shared code following the
create/update branch: `createDeploymentRecord`, `createAndUploadBundle`
(create bundle, upload bundle, record write), `updateContent`, `setEnvVars`,
`deployBundle`, `WaitForTask`, and optionally `validateContent`; each stage
terminal on first failure.  The bodies of `createDeployment`, `setEnvVars`,
`deployBundle` and `validateContent` are not under `src/`; modelled from the
spec, each issues exactly one corresponding server API call. -/
def stagesAfterContentID (c : Client) (validate : Bool) (cid : String) :
    List Step × Bool :=
  if ¬ c.recordWriteOk then ([.writeRecord], false)
  else if ¬ c.bundleOk then ([.writeRecord, .createBundle], false)
  else
    match c.uploadResult with
    | none => ([.writeRecord, .createBundle, .uploadBundle cid], false)
    | some bid =>
      if ¬ c.updateOk then
        ([.writeRecord, .createBundle, .uploadBundle cid, .writeRecord,
          .updateDeployment cid], false)
      else if ¬ c.envVarsOk then
        ([.writeRecord, .createBundle, .uploadBundle cid, .writeRecord,
          .updateDeployment cid, .setEnvVars cid], false)
      else
        match c.deployResult with
        | none =>
          ([.writeRecord, .createBundle, .uploadBundle cid, .writeRecord,
            .updateDeployment cid, .setEnvVars cid, .deployBundle cid bid], false)
        | some tid =>
          if ¬ c.waitOk then
            ([.writeRecord, .createBundle, .uploadBundle cid, .writeRecord,
              .updateDeployment cid, .setEnvVars cid, .deployBundle cid bid,
              .waitForTask tid], false)
          else if validate then
            ([.writeRecord, .createBundle, .uploadBundle cid, .writeRecord,
              .updateDeployment cid, .setEnvVars cid, .deployBundle cid bid,
              .waitForTask tid, .validateDeployment cid], c.validateOk)
          else
            ([.writeRecord, .createBundle, .uploadBundle cid, .writeRecord,
              .updateDeployment cid, .setEnvVars cid, .deployBundle cid bid,
              .waitForTask tid], true)

/-- `defaultPublisher.publishWithClient` from `notebook.go`: preflight
(`checkConfiguration`: authentication test, then capability check), then —
when no content id is known (`!isDeployed`) — one `CreateDeployment` call
whose assigned id is recorded, or — when a content id is known — no create
call, the known id being reused; both branches then run the identical
`stagesAfterContentID` tail.  The trace lists the attempted actions in
order; the Bool is overall success. -/
def publishWithClient (isDeployed : Bool) (targetID : String) (validate : Bool)
    (c : Client) : List Step × Bool :=
  if ¬ c.authOk then ([.testAuthentication], false)
  else if ¬ c.capabilitiesOk then ([.testAuthentication, .checkCapabilities], false)
  else if isDeployed then
    ([.testAuthentication, .checkCapabilities]
        ++ (stagesAfterContentID c validate targetID).1,
      (stagesAfterContentID c validate targetID).2)
  else
    match c.createResult with
    | none => ([.testAuthentication, .checkCapabilities, .createDeployment], false)
    | some cid =>
      ([.testAuthentication, .checkCapabilities, .createDeployment]
          ++ (stagesAfterContentID c validate cid).1,
        (stagesAfterContentID c validate cid).2)

theorem createDeployment_not_in_stages (c : Client) (validate : Bool) (cid : String) :
    Step.createDeployment ∉ (stagesAfterContentID c validate cid).1 := by
  unfold stagesAfterContentID
  split
  · simp
  · split
    · simp
    · split
      · simp
      · split
        · simp
        · split
          · simp
          · split
            · simp
            · split
              · simp
              · split <;> simp

theorem uploadBundle_not_in_preflight :
    ∀ x ∈ [Step.testAuthentication, Step.checkCapabilities],
      ∀ u, x ≠ Step.uploadBundle u := by
  intro x hx u
  rcases List.mem_cons.mp hx with rfl | hx'
  · exact fun h => Step.noConfusion h
  · rcases List.mem_cons.mp hx' with rfl | hx''
    · exact fun h => Step.noConfusion h
    · exact absurd hx'' (by simp)

theorem stages_success_update_mem (c : Client) (validate : Bool) (cid : String)
    (h : (stagesAfterContentID c validate cid).2 = true) :
    Step.updateDeployment cid ∈ (stagesAfterContentID c validate cid).1 := by
  rcases c with ⟨auth, cap, createR, recOk, bundleOk, upR, updOk, envOk, depR, waitOk, valOk⟩
  cases recOk <;> cases bundleOk <;> cases upR <;> cases updOk <;> cases envOk <;>
    cases depR <;> cases waitOk <;> cases validate <;>
    simp_all [stagesAfterContentID]

theorem publish_eq_noauth (d : Bool) (t : String) (v : Bool) (c : Client)
    (ha : ¬ c.authOk = true) :
    publishWithClient d t v c = ([.testAuthentication], false) := by
  unfold publishWithClient
  rw [if_pos ha]

theorem publish_eq_nocap (d : Bool) (t : String) (v : Bool) (c : Client)
    (ha : c.authOk = true) (hc : ¬ c.capabilitiesOk = true) :
    publishWithClient d t v c
      = ([.testAuthentication, .checkCapabilities], false) := by
  unfold publishWithClient
  rw [if_neg (not_not_intro ha), if_pos hc]

theorem publish_eq_deployed (t : String) (v : Bool) (c : Client)
    (ha : c.authOk = true) (hc : c.capabilitiesOk = true) :
    publishWithClient true t v c
      = ([.testAuthentication, .checkCapabilities]
          ++ (stagesAfterContentID c v t).1, (stagesAfterContentID c v t).2) := by
  unfold publishWithClient
  rw [if_neg (not_not_intro ha), if_neg (not_not_intro hc), if_pos rfl]

theorem publish_eq_fresh_none (t : String) (v : Bool) (c : Client)
    (ha : c.authOk = true) (hc : c.capabilitiesOk = true)
    (hcr : c.createResult = none) :
    publishWithClient false t v c
      = ([.testAuthentication, .checkCapabilities, .createDeployment], false) := by
  unfold publishWithClient
  rw [if_neg (not_not_intro ha), if_neg (not_not_intro hc)]
  simp [hcr]

theorem publish_eq_fresh_some (t : String) (v : Bool) (c : Client) (cid : String)
    (ha : c.authOk = true) (hc : c.capabilitiesOk = true)
    (hcr : c.createResult = some cid) :
    publishWithClient false t v c
      = ([.testAuthentication, .checkCapabilities, .createDeployment]
          ++ (stagesAfterContentID c v cid).1, (stagesAfterContentID c v cid).2) := by
  unfold publishWithClient
  rw [if_neg (not_not_intro ha), if_neg (not_not_intro hc)]
  simp [hcr]

/-- C1: with no known content id, the orchestrator issues exactly one
create-deployment call (once preflight passes), and that call happens before
any bundle-upload call; with a known content id no create-deployment call is
ever issued and a successful publish issues the update-deployment call
instead; and both paths converge on the identical subsequent stage sequence
— record write, create bundle, upload bundle, record write, update content
settings, set environment variables, deploy bundle, wait for task. -/
theorem publish_create_or_update (targetID : String) (validate : Bool) (c : Client) :
    (Step.createDeployment ∉ (publishWithClient true targetID validate c).1)
    ∧ (c.authOk = true → c.capabilitiesOk = true →
        (publishWithClient false targetID validate c).1.count Step.createDeployment = 1)
    ∧ ((∃ u, Step.uploadBundle u ∈ (publishWithClient false targetID validate c).1) →
        ∃ l1 l2, (publishWithClient false targetID validate c).1
            = l1 ++ Step.createDeployment :: l2
          ∧ ∀ u, Step.uploadBundle u ∉ l1)
    ∧ ((publishWithClient true targetID validate c).2 = true →
        Step.updateDeployment targetID ∈ (publishWithClient true targetID validate c).1)
    ∧ (∀ cid, c.authOk = true → c.capabilitiesOk = true → c.createResult = some cid →
        ∃ S r, publishWithClient false targetID validate c
            = ([Step.testAuthentication, Step.checkCapabilities, Step.createDeployment]
                ++ S, r)
          ∧ publishWithClient true cid validate c
            = ([Step.testAuthentication, Step.checkCapabilities] ++ S, r))
    ∧ (∀ cid bid tid, c.authOk = true → c.capabilitiesOk = true →
        c.createResult = some cid → c.recordWriteOk = true → c.bundleOk = true →
        c.uploadResult = some bid → c.updateOk = true → c.envVarsOk = true →
        c.deployResult = some tid → c.waitOk = true →
        publishWithClient false targetID false c
          = ([.testAuthentication, .checkCapabilities, .createDeployment, .writeRecord,
              .createBundle, .uploadBundle cid, .writeRecord, .updateDeployment cid,
              .setEnvVars cid, .deployBundle cid bid, .waitForTask tid], true)
        ∧ publishWithClient true cid false c
          = ([.testAuthentication, .checkCapabilities, .writeRecord,
              .createBundle, .uploadBundle cid, .writeRecord, .updateDeployment cid,
              .setEnvVars cid, .deployBundle cid bid, .waitForTask tid], true)) := by
  refine ⟨?_, ?_, ?_, ?_, ?_, ?_⟩
  · by_cases ha : c.authOk = true
    · by_cases hc : c.capabilitiesOk = true
      · rw [publish_eq_deployed targetID validate c ha hc]
        intro hmem
        rcases List.mem_append.mp hmem with h1 | h2
        · simp at h1
        · exact createDeployment_not_in_stages c validate targetID h2
      · rw [publish_eq_nocap true targetID validate c ha hc]
        simp
    · rw [publish_eq_noauth true targetID validate c ha]
      simp
  · intro ha hc
    unfold publishWithClient
    rw [if_neg (by simp [ha]), if_neg (by simp [hc])]
    rcases hcr : c.createResult with _ | cid
    · simp
    · simp only [Bool.false_eq_true, if_false]
      rw [List.count_append]
      rw [List.count_eq_zero.mpr (createDeployment_not_in_stages c validate cid)]
      decide
  · rintro ⟨u, hu⟩
    by_cases ha : c.authOk = true
    · by_cases hc : c.capabilitiesOk = true
      · rcases hcr : c.createResult with _ | cid
        · rw [publish_eq_fresh_none targetID validate c ha hc hcr] at hu
          simp at hu
        · rw [publish_eq_fresh_some targetID validate c cid ha hc hcr]
          refine ⟨[Step.testAuthentication, Step.checkCapabilities],
            (stagesAfterContentID c validate cid).1, rfl, ?_⟩
          intro v hv
          exact uploadBundle_not_in_preflight _ hv v rfl
      · rw [publish_eq_nocap false targetID validate c ha hc] at hu
        simp at hu
    · rw [publish_eq_noauth false targetID validate c ha] at hu
      simp at hu
  · intro h
    by_cases ha : c.authOk = true
    · by_cases hc : c.capabilitiesOk = true
      · rw [publish_eq_deployed targetID validate c ha hc] at h ⊢
        exact List.mem_append.mpr (Or.inr (stages_success_update_mem c validate targetID h))
      · rw [publish_eq_nocap true targetID validate c ha hc] at h
        simp at h
    · rw [publish_eq_noauth true targetID validate c ha] at h
      simp at h
  · intro cid ha hc hcr
    refine ⟨(stagesAfterContentID c validate cid).1,
      (stagesAfterContentID c validate cid).2, ?_, ?_⟩
    · unfold publishWithClient
      rw [if_neg (by simp [ha]), if_neg (by simp [hc])]
      simp [hcr]
    · unfold publishWithClient
      rw [if_neg (by simp [ha]), if_neg (by simp [hc])]
      simp
  · intro cid bid tid ha hc hcr hrec hbun hup hupd henv hdep hwait
    constructor
    · unfold publishWithClient stagesAfterContentID
      rw [if_neg (by simp [ha]), if_neg (by simp [hc])]
      simp [hcr, hrec, hbun, hup, hupd, henv, hdep, hwait]
    · unfold publishWithClient stagesAfterContentID
      rw [if_neg (by simp [ha]), if_neg (by simp [hc])]
      simp [hrec, hbun, hup, hupd, henv, hdep, hwait]

/-- C1 witness: a concrete all-successful client — the fresh-publish trace is
preflight, create-deployment, then the shared tail; the known-id trace is the
same without the create call, the update call serving both paths. -/
theorem publish_create_or_update_witness :
    publishWithClient false "" false
        ⟨true, true, some "c1", true, true, some "b1", true, true, some "t1", true, true⟩
      = ([.testAuthentication, .checkCapabilities, .createDeployment, .writeRecord,
          .createBundle, .uploadBundle "c1", .writeRecord, .updateDeployment "c1",
          .setEnvVars "c1", .deployBundle "c1" "b1", .waitForTask "t1"], true)
    ∧ publishWithClient true "c1" false
        ⟨true, true, some "c1", true, true, some "b1", true, true, some "t1", true, true⟩
      = ([.testAuthentication, .checkCapabilities, .writeRecord,
          .createBundle, .uploadBundle "c1", .writeRecord, .updateDeployment "c1",
          .setEnvVars "c1", .deployBundle "c1" "b1", .waitForTask "t1"], true) :=
  (publish_create_or_update "" false
      ⟨true, true, some "c1", true, true, some "b1", true, true, some "t1", true, true⟩
    ).2.2.2.2.2 "c1" "b1" "t1" rfl rfl rfl rfl rfl rfl rfl rfl rfl rfl

end Orchestrator

namespace Bundler

/-- A filesystem tree as the bundler's walk sees it: regular files with
contents, directories with named children (in `ReadDir` order), and symbolic
links carrying an absolute target path (component list from the walk
root). -/
inductive FsNode where
  | file (content : String)
  | dir (children : List (String × FsNode))
  | symlink (target : List String)

/-- Directory-entry lookup by name. -/
def lookupChild : List (String × FsNode) → String → Option FsNode
  | [], _ => none
  | (n, node) :: rest, name => if n = name then some node else lookupChild rest name

/-- POSIX-style path resolution from `root`, with fuel bounding symlink
hops: `followFinal := false` is `lstat` (the final component is not
dereferenced), `followFinal := true` is a full resolve (`EvalSymlinks` /
`Stat`).  A symlink met mid-path is always followed; its absolute target is
spliced in front of the remaining components. -/
def resolveN (root : FsNode) : Nat → FsNode → List String → Bool → Option FsNode
  | 0, _, _, _ => none
  | fuel + 1, cur, path, followFinal =>
    match cur, path with
    | .symlink t, [] =>
      if followFinal then resolveN root fuel root t true else some (.symlink t)
    | .symlink t, n :: rest => resolveN root fuel root (t ++ n :: rest) followFinal
    | .file c, [] => some (.file c)
    | .file _, _ :: _ => none
    | .dir ch, [] => some (.dir ch)
    | .dir ch, n :: rest =>
      match lookupChild ch n with
      | some child => resolveN root (fuel + 1) child rest followFinal
      | none => none
  termination_by fuel _ path _ => (fuel, path.length)

/-- A manifest file entry: relative path and file content (the manifest
stores `md5(content)`; any function of the content transports along the
equalities proved below). -/
abbrev Entry := List String × String

mutual

/-- `bundle.walkFunc` from `bundle.go`, applied to the node the walker
reports at `path` (the walker's `lstat` view): excluded paths are skipped;
a regular file contributes one manifest entry; a directory's children are
visited structurally (the walker's own recursion); a symlink is resolved
(`filepath.EvalSymlinks` on its target) — a directory target has its
entries re-walked *through the link path* (`b.walker.Walk(subPath,
b.walkFunc)`), a file target is treated as a file at the link's path. -/
def visit (root : FsNode) (excl : List String → Bool) (rfuel : Nat) :
    Nat → List String → FsNode → Option (List Entry)
  | fuel, path, node =>
    if excl path then some []
    else
      match node with
      | .file c => some [(path, c)]
      | .dir ch => visitMany root excl rfuel fuel path ch
      | .symlink t =>
        match resolveN root rfuel root t true with
        | some (.dir ch) => walkThrough root excl rfuel fuel path (ch.map Prod.fst)
        | some (.file c) => some [(path, c)]
        | _ => none
  termination_by fuel _ node => (fuel, sizeOf node, 0)

/-- The walker's recursion over a real directory's entries. -/
def visitMany (root : FsNode) (excl : List String → Bool) (rfuel : Nat) :
    Nat → List String → List (String × FsNode) → Option (List Entry)
  | _, _, [] => some []
  | fuel, path, (n, child) :: rest =>
    match visit root excl rfuel fuel (path ++ [n]) child,
        visitMany root excl rfuel fuel path rest with
    | some a, some b => some (a ++ b)
    | _, _ => none
  termination_by fuel _ ch => (fuel, sizeOf ch, 1)

/-- The symlink-directory branch of `walkFunc`: each entry name of the
resolved target directory is re-walked at the path through the link. -/
def walkThrough (root : FsNode) (excl : List String → Bool) (rfuel : Nat) :
    Nat → List String → List String → Option (List Entry)
  | _, _, [] => some []
  | fuel, path, n :: rest =>
    match walkPath root excl rfuel fuel (path ++ [n]),
        walkThrough root excl rfuel fuel path rest with
    | some a, some b => some (a ++ b)
    | _, _ => none
  termination_by fuel _ names => (fuel, 0, 1 + names.length)

/-- `Walker.Walk` at one path: `lstat` the path, then hand the result to
`walkFunc`; a stat error (here: unresolvable path or exhausted fuel) aborts
the walk. -/
def walkPath (root : FsNode) (excl : List String → Bool) (rfuel : Nat) :
    Nat → List String → Option (List Entry)
  | 0, _ => none
  | fuel + 1, path =>
    match resolveN root rfuel root path false with
    | some node => visit root excl rfuel fuel path node
    | none => none
  termination_by fuel _ => (fuel, 0, 0)

end

mutual

/-- No symlink anywhere in the subtree. -/
def symlinkFree : FsNode → Bool
  | .file _ => true
  | .dir ch => symlinkFreeList ch
  | .symlink _ => false

def symlinkFreeList : List (String × FsNode) → Bool
  | [] => true
  | (_, n) :: rest => symlinkFree n && symlinkFreeList rest

end

/-- Pure structural lookup of a path inside a subtree (no symlink
traversal). -/
def lookupPath : FsNode → List String → Option FsNode
  | node, [] => some node
  | .dir ch, n :: rest =>
    match lookupChild ch n with
    | some child => lookupPath child rest
    | none => none
  | .file _, _ :: _ => none
  | .symlink _, _ :: _ => none

theorem lookupChild_symlinkFree (ch : List (String × FsNode)) (n : String)
    (child : FsNode) (h : symlinkFreeList ch = true)
    (hl : lookupChild ch n = some child) : symlinkFree child = true := by
  induction ch with
  | nil => exact absurd hl (by simp [lookupChild])
  | cons kv rest ih =>
    cases kv with
    | mk m node =>
      rw [symlinkFreeList, Bool.and_eq_true] at h
      rw [lookupChild] at hl
      by_cases hm : m = n
      · rw [if_pos hm] at hl
        rw [← Option.some.inj hl]
        exact h.1
      · rw [if_neg hm] at hl
        exact ih h.2 hl

/-- Inside a symlink-free subtree, resolution is structural lookup: it
consumes no fuel (beyond being started) and ignores the root and the
`followFinal` mode. -/
theorem resolveN_symlinkFree (root : FsNode) (g : Nat) (p : List String) :
    ∀ (M : FsNode) (ff : Bool), symlinkFree M = true →
      resolveN root (g + 1) M p ff = lookupPath M p := by
  induction p with
  | nil =>
    intro M ff h
    cases M with
    | file c => rw [resolveN, lookupPath]
    | dir ch => rw [resolveN, lookupPath]
    | symlink t => exact absurd h (by rw [symlinkFree]; simp)
  | cons n rest ih =>
    intro M ff h
    cases M with
    | file c => rw [resolveN, lookupPath]
    | dir ch =>
      rw [resolveN, lookupPath]
      rcases hl : lookupChild ch n with _ | child
      · rfl
      · exact ih child ff (lookupChild_symlinkFree ch n child (by rwa [symlinkFree] at h) hl)
    | symlink t => exact absurd h (by rw [symlinkFree]; simp)

mutual

/-- The walk restricted to symlink-free subtrees: a pure structural
function — what the walk does under any real (copied) subtree. -/
def walkSF (excl : List String → Bool) : List String → FsNode → Option (List Entry)
  | path, node =>
    if excl path then some []
    else
      match node with
      | .file c => some [(path, c)]
      | .dir ch => walkSFMany excl path ch
      | .symlink _ => none

def walkSFMany (excl : List String → Bool) :
    List String → List (String × FsNode) → Option (List Entry)
  | _, [] => some []
  | path, (n, child) :: rest =>
    match walkSF excl (path ++ [n]) child, walkSFMany excl path rest with
    | some a, some b => some (a ++ b)
    | _, _ => none

end

mutual

theorem visit_eq_walkSF (root : FsNode) (excl : List String → Bool)
    (rfuel fuel : Nat) (path : List String) (M : FsNode)
    (h : symlinkFree M = true) :
    visit root excl rfuel fuel path M = walkSF excl path M := by
  cases M with
  | file c => rw [visit, walkSF]
  | dir ch =>
    rw [visit, walkSF]
    by_cases he : excl path = true
    · rw [if_pos he, if_pos he]
    · rw [if_neg he, if_neg he]
      exact visitMany_eq_walkSFMany root excl rfuel fuel path ch
        (by rwa [symlinkFree] at h)
  | symlink t => exact absurd h (by rw [symlinkFree]; simp)

theorem visitMany_eq_walkSFMany (root : FsNode) (excl : List String → Bool)
    (rfuel fuel : Nat) (path : List String) (ch : List (String × FsNode))
    (h : symlinkFreeList ch = true) :
    visitMany root excl rfuel fuel path ch = walkSFMany excl path ch := by
  cases ch with
  | nil => rw [visitMany, walkSFMany]
  | cons kv rest =>
    cases kv with
    | mk n child =>
      rw [symlinkFreeList, Bool.and_eq_true] at h
      rw [visitMany, walkSFMany]
      rw [visit_eq_walkSF root excl rfuel fuel (path ++ [n]) child h.1,
        visitMany_eq_walkSFMany root excl rfuel fuel path rest h.2]

end

/-- The tree in which `L` is a symbolic link to the directory `d`
(whose subtree is `Nch`). -/
def linkRoot (Nch : List (String × FsNode)) (L d : String) : FsNode :=
  .dir [(d, .dir Nch), (L, .symlink [d])]

/-- The tree in which a real copy of `d`'s subtree sits at `L`. -/
def copyRoot (Nch : List (String × FsNode)) (L d : String) : FsNode :=
  .dir [(d, .dir Nch), (L, .dir Nch)]

theorem lookupChild_pair_fst (d L : String) (A B : FsNode) :
    lookupChild [(d, A), (L, B)] d = some A := by
  rw [lookupChild, if_pos rfl]

theorem lookupChild_pair_snd (d L : String) (A B : FsNode) (hne : d ≠ L) :
    lookupChild [(d, A), (L, B)] L = some B := by
  rw [lookupChild, if_neg hne, lookupChild, if_pos rfl]

theorem resolve_top_d (Nch : List (String × FsNode)) (L d : String) (X : FsNode)
    (hsf : symlinkFreeList Nch = true) (g : Nat) (p : List String) (ff : Bool) :
    resolveN (.dir [(d, .dir Nch), (L, X)]) (g + 1)
        (.dir [(d, .dir Nch), (L, X)]) (d :: p) ff
      = lookupPath (.dir Nch) p := by
  rw [resolveN, lookupChild_pair_fst]
  exact resolveN_symlinkFree _ g p (.dir Nch) ff (by rw [symlinkFree]; exact hsf)

theorem resolve_top_L_link (Nch : List (String × FsNode)) (L d : String)
    (hsf : symlinkFreeList Nch = true) (hne : d ≠ L) (g : Nat) (p : List String)
    (ff : Bool) (hok : p ≠ [] ∨ ff = true) :
    resolveN (linkRoot Nch L d) (g + 1 + 1) (linkRoot Nch L d) (L :: p) ff
      = lookupPath (.dir Nch) p := by
  have h1 : resolveN (linkRoot Nch L d) (g + 1 + 1) (linkRoot Nch L d) (L :: p) ff
      = resolveN (linkRoot Nch L d) (g + 1 + 1) (.symlink [d]) p ff := by
    conv_lhs => rw [linkRoot, resolveN]
    rw [lookupChild_pair_snd d L _ _ hne]
    rfl
  rw [h1]
  cases p with
  | nil =>
    have hff : ff = true := by
      rcases hok with h | h
      · exact absurd rfl h
      · exact h
    subst hff
    have h2 : resolveN (linkRoot Nch L d) (g + 1 + 1) (.symlink [d]) [] true
        = resolveN (linkRoot Nch L d) (g + 1) (linkRoot Nch L d) [d] true := by
      rw [resolveN, if_pos rfl]
    rw [h2, show ([d] : List String) = d :: [] from rfl]
    exact resolve_top_d Nch L d (.symlink [d]) hsf g [] true
  | cons n rest =>
    have h2 : resolveN (linkRoot Nch L d) (g + 1 + 1) (.symlink [d]) (n :: rest) ff
        = resolveN (linkRoot Nch L d) (g + 1) (linkRoot Nch L d) ([d] ++ n :: rest) ff := by
      rw [resolveN]
    rw [h2, show ([d] ++ n :: rest : List String) = d :: n :: rest from rfl]
    exact resolve_top_d Nch L d (.symlink [d]) hsf g (n :: rest) ff

theorem resolve_top_L_copy (Nch : List (String × FsNode)) (L d : String)
    (hsf : symlinkFreeList Nch = true) (hne : d ≠ L) (g : Nat) (p : List String)
    (ff : Bool) :
    resolveN (copyRoot Nch L d) (g + 1) (copyRoot Nch L d) (L :: p) ff
      = lookupPath (.dir Nch) p := by
  rw [copyRoot, resolveN, lookupChild_pair_snd d L _ _ hne]
  exact resolveN_symlinkFree _ g p (.dir Nch) ff (by rw [symlinkFree]; exact hsf)

theorem lookupChild_of_nodup (ch : List (String × FsNode))
    (hnd : (ch.map Prod.fst).Nodup) (n : String) (node : FsNode)
    (hm : (n, node) ∈ ch) : lookupChild ch n = some node := by
  induction ch with
  | nil => exact absurd hm (by simp)
  | cons kv rest ih =>
    cases kv with
    | mk m x =>
      rw [List.map_cons, List.nodup_cons] at hnd
      rcases List.mem_cons.mp hm with heq | hmr
      · rw [lookupChild]
        have : m = n := by
          have := congrArg Prod.fst heq
          simpa using this.symm
        rw [if_pos this]
        have : x = node := by
          have := congrArg Prod.snd heq
          simpa using this.symm
        rw [this]
      · rw [lookupChild]
        by_cases hmn : m = n
        · exfalso
          apply hnd.1
          rw [hmn]
          exact List.mem_map.mpr ⟨(n, node), hmr, rfl⟩
        · rw [if_neg hmn]
          exact ih hnd.2 hmr

theorem symlinkFreeList_mem (ch : List (String × FsNode))
    (h : symlinkFreeList ch = true) (n : String) (node : FsNode)
    (hm : (n, node) ∈ ch) : symlinkFree node = true := by
  induction ch with
  | nil => exact absurd hm (by simp)
  | cons kv rest ih =>
    cases kv with
    | mk m x =>
      rw [symlinkFreeList, Bool.and_eq_true] at h
      rcases List.mem_cons.mp hm with heq | hmr
      · have : x = node := by
          have := congrArg Prod.snd heq
          simpa using this.symm
        rw [← this]
        exact h.1
      · exact ih h.2 hmr

theorem walkThrough_link (Nch : List (String × FsNode)) (L d : String)
    (excl : List String → Bool) (r f : Nat)
    (hsf : symlinkFreeList Nch = true) (hnd : (Nch.map Prod.fst).Nodup)
    (hne : d ≠ L) :
    ∀ suffix : List (String × FsNode), (∀ kv ∈ suffix, kv ∈ Nch) →
      walkThrough (linkRoot Nch L d) excl (r + 1 + 1) (f + 1) [L] (suffix.map Prod.fst)
        = walkSFMany excl [L] suffix := by
  intro suffix
  induction suffix with
  | nil =>
    intro _
    rw [List.map_nil, walkThrough, walkSFMany]
  | cons kv rest ih =>
    intro hsub
    cases kv with
    | mk n node =>
      have hmem : (n, node) ∈ Nch := hsub (n, node) (List.mem_cons_self _ rest)
      have hpath : walkPath (linkRoot Nch L d) excl (r + 1 + 1) (f + 1) ([L] ++ [n])
          = walkSF excl ([L] ++ [n]) node := by
        rw [walkPath]
        have hres : resolveN (linkRoot Nch L d) (r + 1 + 1) (linkRoot Nch L d)
            (L :: [n]) false = some node := by
          rw [resolve_top_L_link Nch L d hsf hne r [n] false (Or.inl (by simp))]
          simp only [lookupPath, lookupChild_of_nodup Nch hnd n node hmem]
        rw [show ([L] ++ [n] : List String) = L :: [n] from rfl, hres]
        exact visit_eq_walkSF _ excl (r + 1 + 1) f (L :: [n]) node
          (symlinkFreeList_mem Nch hsf n node hmem)
      rw [List.map_cons, walkThrough, walkSFMany, hpath,
        ih (fun kv hkv => hsub kv (List.mem_cons_of_mem _ hkv))]

/-- C4: bundling a tree in which path `L` is a symbolic link to the
directory `d` (whose subtree has unique entry names and no further
symlinks) produces exactly the same manifest file entries — same relative
paths, same contents, hence the same checksums under any hash — as bundling
the tree in which a real copy of `d`'s subtree sits at `L`; this holds for
every ignore-rule predicate and all sufficient walk/resolution fuel. -/
theorem bundle_symlink_subtree_illusion
    (Nch : List (String × FsNode)) (L d : String) (excl : List String → Bool)
    (rfuel wfuel : Nat)
    (hsf : symlinkFreeList Nch = true)
    (hnd : (Nch.map Prod.fst).Nodup)
    (hne : L ≠ d) (hrf : 2 ≤ rfuel) (hwf : 2 ≤ wfuel) :
    walkPath (linkRoot Nch L d) excl rfuel wfuel []
      = walkPath (copyRoot Nch L d) excl rfuel wfuel []
    ∧ ∀ md5 : String → String,
        Option.map (List.map (fun e : Entry => (e.1, md5 e.2)))
            (walkPath (linkRoot Nch L d) excl rfuel wfuel [])
          = Option.map (List.map (fun e : Entry => (e.1, md5 e.2)))
            (walkPath (copyRoot Nch L d) excl rfuel wfuel []) := by
  obtain ⟨r, rfl⟩ : ∃ r, rfuel = r + 1 + 1 := ⟨rfuel - 2, by omega⟩
  obtain ⟨w, rfl⟩ : ∃ w, wfuel = w + 1 + 1 := ⟨wfuel - 2, by omega⟩
  have hne' : d ≠ L := fun h => hne h.symm
  have hres₁ : resolveN (linkRoot Nch L d) (r + 1 + 1) (linkRoot Nch L d) [] false
      = some (linkRoot Nch L d) := by
    conv_lhs => rw [linkRoot, resolveN]
    rfl
  have hres₂ : resolveN (copyRoot Nch L d) (r + 1 + 1) (copyRoot Nch L d) [] false
      = some (copyRoot Nch L d) := by
    conv_lhs => rw [copyRoot, resolveN]
    rfl
  have hA₁ : walkPath (linkRoot Nch L d) excl (r + 1 + 1) (w + 1 + 1) []
      = visit (linkRoot Nch L d) excl (r + 1 + 1) (w + 1) [] (linkRoot Nch L d) := by
    rw [walkPath, hres₁]
  have hA₂ : walkPath (copyRoot Nch L d) excl (r + 1 + 1) (w + 1 + 1) []
      = visit (copyRoot Nch L d) excl (r + 1 + 1) (w + 1) [] (copyRoot Nch L d) := by
    rw [walkPath, hres₂]
  have hL : visit (linkRoot Nch L d) excl (r + 1 + 1) (w + 1) ([] ++ [L]) (.symlink [d])
      = visit (copyRoot Nch L d) excl (r + 1 + 1) (w + 1) ([] ++ [L]) (.dir Nch) := by
    simp only [visit.eq_def]
    by_cases hexcl2 : excl ([] ++ [L]) = true
    · rw [if_pos hexcl2, if_pos hexcl2]
    · rw [if_neg hexcl2, if_neg hexcl2]
      have hres3 : resolveN (linkRoot Nch L d) (r + 1 + 1) (linkRoot Nch L d) [d] true
          = some (.dir Nch) :=
        resolve_top_d Nch L d (.symlink [d]) hsf (r + 1) [] true
      rw [hres3]
      have hright : visitMany (copyRoot Nch L d) excl (r + 1 + 1) (w + 1) ([] ++ [L]) Nch
          = walkSFMany excl ([] ++ [L]) Nch :=
        visitMany_eq_walkSFMany _ excl _ _ _ Nch hsf
      rw [hright]
      exact walkThrough_link Nch L d excl r w hsf hnd hne' Nch (fun kv h => h)
  have hmain : walkPath (linkRoot Nch L d) excl (r + 1 + 1) (w + 1 + 1) []
      = walkPath (copyRoot Nch L d) excl (r + 1 + 1) (w + 1 + 1) [] := by
    rw [hA₁, hA₂]
    simp only [visit.eq_def]
    by_cases hexcl : excl [] = true
    · rw [if_pos hexcl, if_pos hexcl]
    · rw [if_neg hexcl, if_neg hexcl]
      show visitMany (linkRoot Nch L d) excl (r + 1 + 1) (w + 1) []
          [(d, .dir Nch), (L, .symlink [d])]
        = visitMany (copyRoot Nch L d) excl (r + 1 + 1) (w + 1) []
          [(d, .dir Nch), (L, .dir Nch)]
      simp only [visitMany]
      rw [visit_eq_walkSF (linkRoot Nch L d) excl (r + 1 + 1) (w + 1) ([] ++ [d])
          (.dir Nch) (by rw [symlinkFree]; exact hsf),
        visit_eq_walkSF (copyRoot Nch L d) excl (r + 1 + 1) (w + 1) ([] ++ [d])
          (.dir Nch) (by rw [symlinkFree]; exact hsf),
        hL]
  exact ⟨hmain, fun md5 => by rw [hmain]⟩

/-- C4 witness: a concrete target subtree (a file and a nested directory),
walked once through the link `link → data` and once with a real copy at
`link` — the claim theorem applies, so the manifests agree. -/
theorem bundle_symlink_subtree_illusion_witness :
    walkPath (linkRoot [("a.txt", .file "hello"),
        ("sub", .dir [("b.txt", .file "bee")])] "link" "data")
        (fun _ => false) 2 2 []
      = walkPath (copyRoot [("a.txt", .file "hello"),
          ("sub", .dir [("b.txt", .file "bee")])] "link" "data")
        (fun _ => false) 2 2 [] :=
  (bundle_symlink_subtree_illusion
    [("a.txt", .file "hello"), ("sub", .dir [("b.txt", .file "bee")])]
    "link" "data" (fun _ => false) 2 2
    (by decide) (by decide) (by decide) (by decide) (by decide)).1

end Bundler
